import Mathlib

/-!
Shallow embedding of `heic2jpg.py` (HEICtoJPG repository).

Conventions of the embedding:
* Byte strings are modelled as `List Nat` (`Bytes`); only lengths and
  identity of byte streams matter to the verified claims.
* The image codec (Pillow) is external: it is modelled by a `Codec`
  structure whose fields (`size`, `resize`, `convertRGB`, `exifOf`,
  `encode`) are abstract, exactly the operations the script invokes.
* Python `int` arithmetic on sizes is `Nat`; the float expressions
  `int(s * 0.9)` and `int(w * scale)` with `scale = max_side / m` are
  modelled by exact rational arithmetic truncated toward zero, i.e.
  `s * 9 / 10` and `w * max_side / m` in `Nat` division.
* The filesystem is a flat namespace: a list of directory paths plus a
  list of (full path, contents) regular files.  Fallible effects
  (decode, write) are oracles in an `Env` structure returning `Except`.
* A Python exception escaping a function is `Except.error`; a normal
  return value `b` is `Except.ok b`.
-/

set_option autoImplicit false

abbrev Bytes := List Nat

/-! ### Decimal rendering of naturals (Python `str(i)` used in `f"{base}_{i}.jpg"`) -/

def digitChar (d : Nat) : Char :=
  match d with
  | 0 => '0' | 1 => '1' | 2 => '2' | 3 => '3' | 4 => '4'
  | 5 => '5' | 6 => '6' | 7 => '7' | 8 => '8' | 9 => '9'
  | _ => '*'

def digitVal (c : Char) : Nat :=
  match c with
  | '0' => 0 | '1' => 1 | '2' => 2 | '3' => 3 | '4' => 4
  | '5' => 5 | '6' => 6 | '7' => 7 | '8' => 8 | '9' => 9
  | _ => 10

/-- Big-endian decimal digits of `n`, with explicit fuel (fuel `n+1` always suffices). -/
def natStrAux : Nat → Nat → List Char
  | 0, _ => []
  | f + 1, n => if n < 10 then [digitChar n] else natStrAux f (n / 10) ++ [digitChar (n % 10)]

/-- Decimal string of a natural number, as Python's `str(i)` produces it. -/
def natStr (n : Nat) : String := String.mk (natStrAux (n + 1) n)

def bval (cs : List Char) : Nat := cs.foldl (fun a c => 10 * a + digitVal c) 0

theorem digitVal_digitChar {d : Nat} (h : d < 10) : digitVal (digitChar d) = d := by
  interval_cases d <;> rfl

theorem bval_append_digit (cs : List Char) (c : Char) :
    bval (cs ++ [c]) = 10 * bval cs + digitVal c := by
  simp [bval, List.foldl_append]

theorem bval_natStrAux : ∀ f n, n < f → bval (natStrAux f n) = n := by
  intro f
  induction f with
  | zero => intro n h; omega
  | succ f ih =>
    intro n h
    by_cases h10 : n < 10
    · simp [natStrAux, h10, bval, digitVal_digitChar h10]
    · have hdiv : n / 10 < n := Nat.div_lt_self (by omega) (by omega)
      have hdf : n / 10 < f := by omega
      simp only [natStrAux, if_neg h10]
      rw [bval_append_digit, ih _ hdf, digitVal_digitChar (Nat.mod_lt _ (by omega))]
      omega

theorem natStrAux_inj {a b : Nat} (h : natStrAux (a + 1) a = natStrAux (b + 1) b) : a = b := by
  have := bval_natStrAux (a + 1) a (by omega)
  rw [h, bval_natStrAux (b + 1) b (by omega)] at this
  omega

theorem natStr_injective : Function.Injective natStr := by
  intro a b h
  exact natStrAux_inj (congrArg String.data h)

/-! ### Path helpers (pathlib's `parent`, `name`, `suffix`, `stem`) -/

/-- Index (from the front) of the last occurrence of `c` in `cs`, if any. -/
def rlastIdx (c : Char) (cs : List Char) : Option Nat :=
  match cs.reverse.findIdx? (fun x => x == c) with
  | some k => some (cs.length - 1 - k)
  | none => none

/-- `Path(s).name`: everything after the last path separator. -/
def pyName (s : String) : String :=
  match rlastIdx '/' s.data with
  | some i => String.mk (s.data.drop (i + 1))
  | none => s

/-- `Path(s).parent`: everything before the last path separator (`"."` when there is none). -/
def pyParent (s : String) : String :=
  match rlastIdx '/' s.data with
  | some i => String.mk (s.data.take i)
  | none => "."

/-- `Path.suffix` of a final component: the substring from the last dot on,
provided the dot is neither the first nor the last character (pathlib's rule). -/
def pySuffix (name : String) : String :=
  match rlastIdx '.' name.data with
  | some i => if 0 < i ∧ i + 1 < name.data.length then String.mk (name.data.drop i) else ""
  | none => ""

/-- `Path.stem` of a final component: the component with `pySuffix` removed. -/
def pyStem (name : String) : String :=
  match rlastIdx '.' name.data with
  | some i => if 0 < i ∧ i + 1 < name.data.length then String.mk (name.data.take i) else name
  | none => name

/-- Join a directory path and a final component with `/` (pathlib's `dir / name`). -/
def joinP (d n : String) : String := d ++ "/" ++ n

/-- Python `str.lower()`, character-wise (ASCII suffices for the `.heic`
comparisons the script performs; `String.toLower` itself is byte-position
based and does not reduce in the kernel). -/
def strLower (s : String) : String := String.mk (s.data.map Char.toLower)

/-! ### Filesystem model -/

structure FS where
  dirs : List String
  files : List (String × Bytes)
deriving DecidableEq

def FS.isFile (fs : FS) (p : String) : Bool := fs.files.any (fun e => e.1 == p)

def FS.isDir (fs : FS) (p : String) : Bool := fs.dirs.contains p

def FS.allPaths (fs : FS) : List String := fs.files.map Prod.fst ++ fs.dirs

/-- `Path(p).exists()`: `p` is a regular file or a directory. -/
def FS.pexists (fs : FS) (p : String) : Bool := fs.allPaths.contains p

def FS.readF (fs : FS) (p : String) : Option Bytes :=
  (fs.files.find? (fun e => e.1 == p)).map Prod.snd

/-! ### `safe_out_path` (source lines 15-25) -/

/-- The candidate `out_dir / f"{base_name}_{i}.jpg"`. -/
def candJpg (out_dir base : String) (i : Nat) : String :=
  joinP out_dir (base ++ "_" ++ natStr i ++ ".jpg")

/-- The `while True` loop of `safe_out_path`, with explicit fuel.  In the
script the loop runs until a free name is found; for a finite directory
fuel `fs.allPaths.length + 1` provably suffices (`safe_out_path_total`). -/
def safeLoop (fs : FS) (out_dir base : String) : Nat → Nat → Option String
  | 0, _ => none
  | f + 1, i =>
    if fs.pexists (candJpg out_dir base i) then safeLoop fs out_dir base f (i + 1)
    else some (candJpg out_dir base i)

/-- `safe_out_path(out_dir, base_name)`: the unadorned `base.jpg` if free,
otherwise the first free `base_i.jpg` for `i = 1, 2, ...`. -/
def safe_out_path (fs : FS) (out_dir base : String) : Option String :=
  let p := joinP out_dir (base ++ ".jpg")
  if fs.pexists p then safeLoop fs out_dir base (fs.allPaths.length + 1) 1
  else some p

/-! ### Correctness of `safe_out_path` -/

theorem candJpg_injective (od b : String) {i j : Nat} (h : candJpg od b i = candJpg od b j) :
    i = j := by
  have hd := congrArg String.data h
  simp only [candJpg, joinP, String.data_append, List.append_assoc] at hd
  have h1 := List.append_cancel_left hd
  have h2 := List.append_cancel_left h1
  have h3 := List.append_cancel_left h2
  have h4 := List.append_cancel_left h3
  exact natStrAux_inj (List.append_cancel_right h4)

theorem exists_free_cand (fs : FS) (od b : String) :
    ∃ k, k < fs.allPaths.length + 1 ∧ fs.pexists (candJpg od b (1 + k)) = false := by
  by_contra hc
  push_neg at hc
  have hmem : ∀ k ∈ Finset.range (fs.allPaths.length + 1),
      candJpg od b (1 + k) ∈ fs.allPaths.toFinset := by
    intro k hk
    have hx := hc k (Finset.mem_range.mp hk)
    have : fs.pexists (candJpg od b (1 + k)) = true := by
      cases hb : fs.pexists (candJpg od b (1 + k)) with
      | false => exact absurd hb hx
      | true => rfl
    simp only [FS.pexists] at this
    exact List.mem_toFinset.mpr (List.elem_iff.mp this)
  have hinj : Set.InjOn (fun k => candJpg od b (1 + k))
      (Finset.range (fs.allPaths.length + 1)) := by
    intro x _ y _ hxy
    have := candJpg_injective od b hxy
    omega
  have hcard := Finset.card_le_card_of_injOn _ hmem hinj
  rw [Finset.card_range] at hcard
  have hle : fs.allPaths.toFinset.card ≤ fs.allPaths.length := List.toFinset_card_le fs.allPaths
  omega

theorem safeLoop_finds (fs : FS) (od b : String) :
    ∀ f i, (∃ k, k < f ∧ fs.pexists (candJpg od b (i + k)) = false) →
      ∃ j, i ≤ j ∧ fs.pexists (candJpg od b j) = false ∧
        (∀ l, i ≤ l → l < j → fs.pexists (candJpg od b l) = true) ∧
        safeLoop fs od b f i = some (candJpg od b j) := by
  intro f
  induction f with
  | zero =>
    rintro i ⟨k, hk, _⟩
    omega
  | succ f ih =>
    rintro i ⟨k, hk, hfree⟩
    by_cases hi : fs.pexists (candJpg od b i) = true
    · have hk0 : k ≠ 0 := by
        intro h0
        rw [h0, Nat.add_zero] at hfree
        rw [hi] at hfree
        simp at hfree
      obtain ⟨j, hij, hjf, hmin, heq⟩ :=
        ih (i + 1) ⟨k - 1, by omega, by rw [show i + 1 + (k - 1) = i + k by omega]; exact hfree⟩
      refine ⟨j, by omega, hjf, ?_, ?_⟩
      · intro l h1 h2
        rcases Nat.eq_or_lt_of_le h1 with he | hlt
        · rw [← he]; exact hi
        · exact hmin l hlt h2
      · simp only [safeLoop, hi, if_true]
        exact heq
    · have hif : fs.pexists (candJpg od b i) = false := by
        cases hb : fs.pexists (candJpg od b i) with
        | false => rfl
        | true => exact absurd hb hi
      refine ⟨i, Nat.le_refl i, hif, ?_, ?_⟩
      · intro l h1 h2
        omega
      · simp only [safeLoop, hif]
        rfl

theorem safe_out_path_spec (fs : FS) (od b : String) :
    ∃ p, safe_out_path fs od b = some p ∧ fs.pexists p = false ∧
      (fs.pexists (joinP od (b ++ ".jpg")) = false → p = joinP od (b ++ ".jpg")) ∧
      (fs.pexists (joinP od (b ++ ".jpg")) = true →
        ∃ i, 1 ≤ i ∧ p = candJpg od b i ∧
          ∀ l, 1 ≤ l → l < i → fs.pexists (candJpg od b l) = true) := by
  cases hb : fs.pexists (joinP od (b ++ ".jpg")) with
  | false =>
    refine ⟨joinP od (b ++ ".jpg"), ?_, hb, fun _ => rfl, fun h => absurd h (by simp)⟩
    simp only [safe_out_path, hb]
    rfl
  | true =>
    obtain ⟨k, hk, hfree⟩ := exists_free_cand fs od b
    obtain ⟨j, hj1, hjf, hmin, heq⟩ :=
      safeLoop_finds fs od b (fs.allPaths.length + 1) 1 ⟨k, hk, hfree⟩
    refine ⟨candJpg od b j, ?_, hjf, ?_, fun _ => ⟨j, hj1, rfl, hmin⟩⟩
    · simp only [safe_out_path, hb]
      exact heq
    · intro h
      exact absurd h (by simp)

/-! ### Codec adapter (external Pillow operations used by the script) -/

structure Codec (Img : Type) where
  size : Img → Nat × Nat
  resize : Img → Nat × Nat → Img
  convertRGB : Img → Img
  exifOf : Img → Option Bytes
  encode : Img → Nat → Nat → Bool → Bool → Option Bytes → Bytes

/-- `encode_to_bytes` (source lines 27-40).  The `if exif_bytes:` test is
Python truthiness: both `None` and the empty byte string leave EXIF out. -/
def encode_to_bytes {Img : Type} (C : Codec Img) (im : Img) (quality subsampling : Nat)
    (progressive optimize : Bool) (exif_bytes : Option Bytes) : Bytes :=
  C.encode im quality subsampling progressive optimize
    (match exif_bytes with
     | some b => if b.isEmpty then none else some b
     | none => none)

/-- `downscale` (source lines 42-49).  `int(w * scale)` with
`scale = max_side / m` is `w * max_side / m` in exact (floor) arithmetic. -/
def downscale {Img : Type} (C : Codec Img) (im : Img) (max_side : Nat) : Img :=
  let w := (C.size im).1
  let h := (C.size im).2
  let m := max w h
  if m ≤ max_side then im
  else C.resize im (max 1 (w * max_side / m), max 1 (h * max_side / m))

/-! ### The resolution and quality ladders of `compress_to_target` -/

/-- The `while s >= min_max_side` loop (source lines 82-85), with fuel.
`int(s * 0.9)` is `s * 9 / 10`.  For `1 ≤ min_max_side` the loop
terminates and fuel `s + 1` suffices (`side_ladder_unfold`); for
`min_max_side = 0` the Python loop diverges once `s` reaches `0`. -/
def side_ladder_aux : Nat → Nat → Nat → List Nat
  | 0, _, _ => []
  | f + 1, s, m => if m ≤ s then s :: side_ladder_aux f (s * 9 / 10) m else []

def side_ladder (s0 min_max_side : Nat) : List Nat :=
  side_ladder_aux (s0 + 1) s0 min_max_side

/-- `quality_steps = list(range(initial_quality, min_quality - 1, -5))`
(source line 90): `initial, initial-5, ...` while still `≥ min_quality`. -/
def quality_steps (initial min_quality : Nat) : List Nat :=
  (List.range (if initial < min_quality then 0 else (initial - min_quality) / 5 + 1)).map
    (fun k => initial - 5 * k)

/-- The `side_steps` list of `compress_to_target` (source lines 79-87):
`if start_max_side:` is Python truthiness, so `None` and `0` both disable
resizing (`none` entries mean "no resize this pass"). -/
def side_steps (start_max_side : Option Nat) (min_max_side : Nat) : List (Option Nat) :=
  match start_max_side with
  | some s0 => if s0 = 0 then [none] else (side_ladder s0 min_max_side).map some
  | none => [none]

/-- The EXIF bytes `compress_to_target` prepares (source lines 68-73):
`im.info.get("exif")` when `keep_exif`, else `None`. -/
def exifArg {Img : Type} (C : Codec Img) (im : Img) (keep_exif : Bool) : Option Bytes :=
  if keep_exif then C.exifOf im else none

/-- `im_resized = downscale(im, side) if side else im` (source line 94). -/
def resize_pass {Img : Type} (C : Codec Img) (imR : Img) (side : Option Nat) : Img :=
  match side with
  | some s => downscale C imR s
  | none => imR

/-- The sequence of encodings `compress_to_target` attempts, in order:
outer loop over `side_steps`, resizing once per step, inner loop over
`quality_steps` (source lines 92-99). -/
def attempts {Img : Type} (C : Codec Img) (im : Img) (keep_exif : Bool)
    (initial_quality min_quality subsampling : Nat) (progressive optimize : Bool)
    (start_max_side : Option Nat) (min_max_side : Nat) : List Bytes :=
  (side_steps start_max_side min_max_side).flatMap (fun side =>
    (quality_steps initial_quality min_quality).map (fun q =>
      encode_to_bytes C (resize_pass C (C.convertRGB im) side) q subsampling progressive
        optimize (exifArg C im keep_exif)))

/-- The control flow of the nested loops plus the final `return data`
(source lines 92-104): return the first encoding `≤ target`; if none is,
return the last one computed; if no attempt at all was made, the final
`return data` raises `NameError` (`data` unbound), modelled as `none`. -/
def compress_scan (target : Nat) : List Bytes → Option Bytes
  | [] => none
  | [d] => some d
  | d :: e :: rest => if d.length ≤ target then some d else compress_scan target (e :: rest)

/-- `compress_to_target` (source lines 51-104). -/
def compress_to_target {Img : Type} (C : Codec Img) (im : Img) (target_bytes : Nat)
    (keep_exif : Bool) (initial_quality min_quality subsampling : Nat)
    (progressive optimize : Bool) (start_max_side : Option Nat) (min_max_side : Nat) :
    Option Bytes :=
  compress_scan target_bytes
    (attempts C im keep_exif initial_quality min_quality subsampling progressive optimize
      start_max_side min_max_side)

/-! ### Behaviour of the scan over attempted encodings -/

theorem compress_scan_last_le (t : Nat) :
    ∀ l : List Bytes, ∀ d, l.getLast? = some d → d.length ≤ t →
      ∃ r, compress_scan t l = some r ∧ r.length ≤ t := by
  intro l
  induction l with
  | nil => intro d hd _; simp at hd
  | cons x rest ih =>
    intro d hd hle
    cases rest with
    | nil =>
      simp at hd
      exact ⟨x, rfl, hd ▸ hle⟩
    | cons e rest' =>
      by_cases hx : x.length ≤ t
      · exact ⟨x, by simp [compress_scan, hx], hx⟩
      · have htl : (e :: rest').getLast? = some d := by
          rw [List.getLast?_cons_cons] at hd
          exact hd
        obtain ⟨r, hr, hrle⟩ := ih d htl hle
        exact ⟨r, by simp [compress_scan, hx, hr], hrle⟩

theorem compress_scan_all_gt (t : Nat) :
    ∀ l : List Bytes, l ≠ [] → (∀ x ∈ l, t < x.length) →
      compress_scan t l = l.getLast? := by
  intro l
  induction l with
  | nil => intro h _; exact absurd rfl h
  | cons x rest ih =>
    intro _ hall
    cases rest with
    | nil => simp [compress_scan]
    | cons e rest' =>
      have hx : ¬ x.length ≤ t := by
        have := hall x (by simp)
        omega
      rw [List.getLast?_cons_cons]
      simp only [compress_scan, if_neg hx]
      exact ih (by simp) (fun y hy => hall y (List.mem_cons_of_mem x hy))

theorem compress_scan_first (t : Nat) :
    ∀ l : List Bytes, (∃ x ∈ l, x.length ≤ t) →
      compress_scan t l = l.find? (fun d => decide (d.length ≤ t)) := by
  intro l
  induction l with
  | nil => rintro ⟨x, hx, _⟩; simp at hx
  | cons x rest ih =>
    rintro ⟨y, hy, hyle⟩
    by_cases hx : x.length ≤ t
    · cases rest with
      | nil => simp [compress_scan, List.find?, hx]
      | cons e rest' => simp [compress_scan, List.find?, hx]
    · have hyr : y ∈ rest := by
        cases List.mem_cons.mp hy with
        | inl h => exact absurd (h ▸ hyle) hx
        | inr h => exact h
      cases rest with
      | nil => simp at hyr
      | cons e rest' =>
        rw [List.find?_cons_of_neg _ (by simpa using hx)]
        simp only [compress_scan, if_neg hx]
        exact ih ⟨y, hyr, hyle⟩

/-! ### Properties of the resolution ladder -/

theorem side_ladder_aux_congr :
    ∀ f f' s m, 1 ≤ m → s < f → s < f' →
      side_ladder_aux f s m = side_ladder_aux f' s m := by
  intro f
  induction f with
  | zero => intro f' s m _ h _; omega
  | succ f ih =>
    intro f' s m hm hf hf'
    cases f' with
    | zero => omega
    | succ f1 =>
      simp only [side_ladder_aux]
      by_cases hs : m ≤ s
      · rw [if_pos hs, if_pos hs]
        have hlt : s * 9 / 10 < s := by
          have h1 : 1 ≤ s := le_trans hm hs
          have : s * 9 / 10 ≤ s * 9 / 9 := Nat.div_le_div_left (by omega) (by omega)
          have h9 : s * 9 / 9 = s := Nat.mul_div_cancel s (by omega)
          omega
        rw [ih f1 (s * 9 / 10) m hm (by omega) (by omega)]
      · rw [if_neg hs, if_neg hs]

theorem side_ladder_unfold {s m : Nat} (hm : 1 ≤ m) :
    side_ladder s m = if m ≤ s then s :: side_ladder (s * 9 / 10) m else [] := by
  by_cases hs : m ≤ s
  · have hlt : s * 9 / 10 < s := by
      have h1 : 1 ≤ s := le_trans hm hs
      have : s * 9 / 10 ≤ s * 9 / 9 := Nat.div_le_div_left (by omega) (by omega)
      have h9 : s * 9 / 9 = s := Nat.mul_div_cancel s (by omega)
      omega
    rw [if_pos hs]
    show side_ladder_aux (s + 1) s m = _
    simp only [side_ladder_aux, if_pos hs]
    rw [side_ladder_aux_congr s (s * 9 / 10 + 1) (s * 9 / 10) m hm (by omega) (by omega)]
    rfl
  · rw [if_neg hs]
    show side_ladder_aux (s + 1) s m = _
    simp only [side_ladder_aux, if_neg hs]

theorem mul9div10_lt {s : Nat} (h : 1 ≤ s) : s * 9 / 10 < s := by
  have : s * 9 / 10 ≤ s * 9 / 9 := Nat.div_le_div_left (by omega) (by omega)
  have h9 : s * 9 / 9 = s := Nat.mul_div_cancel s (by omega)
  omega

theorem side_ladder_mem_ge {m : Nat} (hm : 1 ≤ m) :
    ∀ s, ∀ x ∈ side_ladder s m, m ≤ x := by
  intro s
  induction s using Nat.strong_induction_on with
  | _ s ih =>
    intro x hx
    rw [side_ladder_unfold hm] at hx
    by_cases hs : m ≤ s
    · rw [if_pos hs] at hx
      cases List.mem_cons.mp hx with
      | inl h => exact h ▸ hs
      | inr h => exact ih (s * 9 / 10) (mul9div10_lt (le_trans hm hs)) x h
    · rw [if_neg hs] at hx
      simp at hx

theorem side_ladder_head {m : Nat} (hm : 1 ≤ m) (s : Nat) :
    (side_ladder s m).head? = if m ≤ s then some s else none := by
  rw [side_ladder_unfold hm]
  by_cases hs : m ≤ s
  · rw [if_pos hs, if_pos hs]
    rfl
  · rw [if_neg hs, if_neg hs]
    rfl

theorem side_ladder_chain {m : Nat} (hm : 1 ≤ m) :
    ∀ s, List.Chain' (fun a b => b = a * 9 / 10) (side_ladder s m) := by
  intro s
  induction s using Nat.strong_induction_on with
  | _ s ih =>
    rw [side_ladder_unfold hm]
    by_cases hs : m ≤ s
    · rw [if_pos hs]
      rw [List.chain'_cons']
      refine ⟨?_, ih (s * 9 / 10) (mul9div10_lt (le_trans hm hs))⟩
      intro y hy
      rw [side_ladder_head hm] at hy
      by_cases h2 : m ≤ s * 9 / 10
      · rw [if_pos h2] at hy
        simp at hy
        exact hy.symm
      · rw [if_neg h2] at hy
        simp at hy
    · rw [if_neg hs]
      exact List.chain'_nil

theorem side_ladder_desc {m : Nat} (hm : 1 ≤ m) :
    ∀ s, List.Chain' (fun a b => b < a) (side_ladder s m) := by
  intro s
  induction s using Nat.strong_induction_on with
  | _ s ih =>
    rw [side_ladder_unfold hm]
    by_cases hs : m ≤ s
    · rw [if_pos hs]
      rw [List.chain'_cons']
      refine ⟨?_, ih (s * 9 / 10) (mul9div10_lt (le_trans hm hs))⟩
      intro y hy
      rw [side_ladder_head hm] at hy
      by_cases h2 : m ≤ s * 9 / 10
      · rw [if_pos h2] at hy
        simp at hy
        rw [← hy]
        exact mul9div10_lt (le_trans hm hs)
      · rw [if_neg h2] at hy
        simp at hy
    · rw [if_neg hs]
      exact List.chain'_nil

theorem side_ladder_last {m : Nat} (hm : 1 ≤ m) :
    ∀ s t, (side_ladder s m).getLast? = some t → t * 9 / 10 < m := by
  intro s
  induction s using Nat.strong_induction_on with
  | _ s ih =>
    intro t ht
    rw [side_ladder_unfold hm] at ht
    by_cases hs : m ≤ s
    · rw [if_pos hs] at ht
      cases hrec : side_ladder (s * 9 / 10) m with
      | nil =>
        rw [hrec] at ht
        simp at ht
        have h2 : ¬ m ≤ s * 9 / 10 := by
          intro hc
          rw [side_ladder_unfold hm, if_pos hc] at hrec
          exact List.noConfusion hrec
        omega
      | cons a l =>
        rw [hrec, List.getLast?_cons_cons] at ht
        exact ih (s * 9 / 10) (mul9div10_lt (le_trans hm hs)) t (hrec ▸ ht)
    · rw [if_neg hs] at ht
      simp at ht

/-! ### Properties of the quality ladder -/

theorem quality_steps_mem {i mn : Nat} : ∀ q ∈ quality_steps i mn, mn ≤ q ∧ q ≤ i := by
  intro q hq
  simp only [quality_steps, List.mem_map, List.mem_range] at hq
  obtain ⟨k, hk, rfl⟩ := hq
  by_cases him : i < mn
  · rw [if_pos him] at hk
    omega
  · rw [if_neg him] at hk
    omega

theorem quality_steps_head {i mn : Nat} (h : mn ≤ i) :
    (quality_steps i mn).head? = some i := by
  rw [List.head?_eq_getElem?]
  simp only [quality_steps, List.getElem?_map]
  rw [if_neg (by omega : ¬ i < mn)]
  rw [List.getElem?_range (by omega)]
  simp

theorem quality_steps_chain {i mn : Nat} :
    List.Chain' (fun a b => b = a - 5) (quality_steps i mn) := by
  by_cases him : i < mn
  · simp [quality_steps, him]
  · rw [quality_steps, if_neg him]
    rw [List.chain'_map]
    rw [show (i - mn) / 5 + 1 = Nat.succ ((i - mn) / 5) from rfl, List.chain'_range_succ]
    intro m hm
    omega

theorem quality_steps_last {i mn : Nat} :
    ∀ q, (quality_steps i mn).getLast? = some q → q < mn + 5 := by
  intro q hq
  rw [List.getLast?_eq_getElem?] at hq
  simp only [quality_steps, List.getElem?_map, List.length_map, List.length_range] at hq
  by_cases him : i < mn
  · rw [if_pos him] at hq
    simp at hq
  · rw [if_neg him] at hq
    rw [List.getElem?_range (by omega)] at hq
    simp only [Option.map_some'] at hq
    have := Option.some.inj hq
    omega

/-! ### The last attempt is the lowest-resolution, lowest-quality encoding -/

theorem flatMap_getLast? {α β : Type} (f : α → List β) :
    ∀ (l : List α) (a : α), l.getLast? = some a → f a ≠ [] →
      (l.flatMap f).getLast? = (f a).getLast? := by
  intro l
  induction l with
  | nil => intro a ha _; simp at ha
  | cons x xs ih =>
    intro a ha hne
    cases xs with
    | nil =>
      simp at ha
      subst ha
      simp
    | cons y ys =>
      rw [List.getLast?_cons_cons] at ha
      have hrec := ih a ha hne
      rw [List.flatMap_cons, List.getLast?_append, hrec]
      cases hfa : (f a).getLast? with
      | none =>
        rw [List.getLast?_eq_none_iff] at hfa
        exact absurd hfa hne
      | some b => simp

theorem attempts_getLast {Img : Type} (C : Codec Img) (im : Img) (keep_exif : Bool)
    (iq mq sub : Nat) (prog opt : Bool) (sms : Option Nat) (m : Nat)
    (sideLast : Option Nat) (qLast : Nat)
    (hs : (side_steps sms m).getLast? = some sideLast)
    (hq : (quality_steps iq mq).getLast? = some qLast) :
    (attempts C im keep_exif iq mq sub prog opt sms m).getLast? =
      some (encode_to_bytes C (resize_pass C (C.convertRGB im) sideLast) qLast sub prog opt
        (exifArg C im keep_exif)) := by
  have hne : quality_steps iq mq ≠ [] := by
    intro h
    rw [h] at hq
    simp at hq
  rw [attempts,
    flatMap_getLast?
      (fun side => (quality_steps iq mq).map (fun q =>
        encode_to_bytes C (resize_pass C (C.convertRGB im) side) q sub prog opt
          (exifArg C im keep_exif)))
      (side_steps sms m) sideLast hs (by simpa using hne)]
  rw [List.getLast?_map, hq]
  rfl

/-! ### Claims C1-C3: the size-targeted encoder -/

/-- A concrete codec instance used to evaluate the encoder model on
closed inputs: images carry no data and `encode` returns `quality` bytes. -/
def qCodec : Codec Unit :=
  ⟨fun _ => (0, 0), fun _ _ => (), fun im => im, fun _ => none,
   fun _ q _ _ _ _ => List.replicate q 0⟩

/-- C1: for every decoded image and byte budget `B`, if the ladder's
lowest-resolution, lowest-quality attempt (the last attempt, at the last
resolution cap and last quality step) encodes to at most `B` bytes, then
`compress_to_target` returns a byte stream of length at most `B`. -/
theorem C1_budget_satisfaction {Img : Type} (C : Codec Img) (im : Img) (B : Nat)
    (keep_exif : Bool) (iq mq sub : Nat) (prog opt : Bool) (sms : Option Nat) (m : Nat)
    (sideLast : Option Nat) (qLast : Nat)
    (hsl : (side_steps sms m).getLast? = some sideLast)
    (hql : (quality_steps iq mq).getLast? = some qLast)
    (hB : (encode_to_bytes C (resize_pass C (C.convertRGB im) sideLast) qLast sub prog opt
      (exifArg C im keep_exif)).length ≤ B) :
    ∃ r, compress_to_target C im B keep_exif iq mq sub prog opt sms m = some r ∧
      r.length ≤ B := by
  have hlast := attempts_getLast C im keep_exif iq mq sub prog opt sms m sideLast qLast hsl hql
  exact compress_scan_last_le B _ _ hlast hB

/-- Witness for C1 at a concrete codec (`encode` returns `quality` bytes):
with budget 50, the last attempt (cap 1289, quality 40) has 40 ≤ 50 bytes,
and the encoder indeed returns a stream of at most 50 bytes. -/
theorem C1_budget_satisfaction_witness :
    ∃ r, compress_to_target qCodec () 50 false 85 40 2 true true (some 3000) 1200 = some r ∧
      r.length ≤ 50 :=
  C1_budget_satisfaction qCodec () 50 false 85 40 2 true true (some 3000) 1200
    (some 1289) 40 (by decide) (by decide) (by decide)

/-- C2: for every decoded image and byte budget `B` strictly below every
attempted encoding's length, `compress_to_target` still returns a byte
stream, that stream is the last attempted encoding (smallest resolution
cap, lowest quality), and it is non-empty. -/
theorem C2_best_effort_fallback {Img : Type} (C : Codec Img) (im : Img) (B : Nat)
    (keep_exif : Bool) (iq mq sub : Nat) (prog opt : Bool) (sms : Option Nat) (m : Nat)
    (sideLast : Option Nat) (qLast : Nat)
    (hsl : (side_steps sms m).getLast? = some sideLast)
    (hql : (quality_steps iq mq).getLast? = some qLast)
    (hall : ∀ d ∈ attempts C im keep_exif iq mq sub prog opt sms m, B < d.length) :
    ∃ r, compress_to_target C im B keep_exif iq mq sub prog opt sms m = some r ∧
      r = encode_to_bytes C (resize_pass C (C.convertRGB im) sideLast) qLast sub prog opt
        (exifArg C im keep_exif) ∧ r ≠ [] := by
  have hlast := attempts_getLast C im keep_exif iq mq sub prog opt sms m sideLast qLast hsl hql
  have hne : attempts C im keep_exif iq mq sub prog opt sms m ≠ [] := by
    intro h
    rw [h] at hlast
    simp at hlast
  have hscan := compress_scan_all_gt B _ hne hall
  refine ⟨_, by rw [compress_to_target, hscan, hlast], rfl, ?_⟩
  have hmem : encode_to_bytes C (resize_pass C (C.convertRGB im) sideLast) qLast sub prog opt
      (exifArg C im keep_exif) ∈ attempts C im keep_exif iq mq sub prog opt sms m := by
    rcases List.getLast?_eq_some_iff.mp hlast with ⟨ys, hys⟩
    rw [hys]
    simp
  have := hall _ hmem
  intro hnil
  rw [hnil] at this
  simp at this

/-- Witness for C2: with budget 10, every attempt (lengths 40-85) exceeds
the budget, and the returned stream is the last attempt (cap 1289,
quality 40), which is non-empty. -/
theorem C2_best_effort_fallback_witness :
    ∃ r, compress_to_target qCodec () 10 false 85 40 2 true true (some 3000) 1200 = some r ∧
      r = encode_to_bytes qCodec (resize_pass qCodec (qCodec.convertRGB ()) (some 1289)) 40 2
        true true (exifArg qCodec () false) ∧ r ≠ [] :=
  C2_best_effort_fallback qCodec () 10 false 85 40 2 true true (some 3000) 1200
    (some 1289) 40 (by decide) (by decide) (by decide)

/-- C3: `compress_to_target` enumerates attempts in resolution-then-quality
descending order: the resolution caps start at `start_max_side`, each next
cap is `int(cap * 0.9)`, all caps are `≥ min_max_side` and the ladder stops
exactly when the next cap would drop below `min_max_side`; the qualities
start at `initial_quality`, step down by 5, and stay `≥ min_quality`; the
attempt list is the flat enumeration of caps-then-qualities; and the first
attempt (in that order) whose encoded length is `≤ B` is returned. -/
theorem C3_enumeration_order {Img : Type} (C : Codec Img) (im : Img) (B : Nat)
    (keep_exif : Bool) (iq mq sub : Nat) (prog opt : Bool) (s0 m : Nat)
    (hm : 1 ≤ m) (hms : m ≤ s0) (hq : mq ≤ iq) :
    side_steps (some s0) m = (side_ladder s0 m).map some ∧
    (side_ladder s0 m).head? = some s0 ∧
    List.Chain' (fun a b => b = a * 9 / 10) (side_ladder s0 m) ∧
    List.Chain' (fun a b => b < a) (side_ladder s0 m) ∧
    (∀ x ∈ side_ladder s0 m, m ≤ x) ∧
    (∀ t, (side_ladder s0 m).getLast? = some t → t * 9 / 10 < m) ∧
    (quality_steps iq mq).head? = some iq ∧
    List.Chain' (fun a b => b = a - 5) (quality_steps iq mq) ∧
    (∀ q ∈ quality_steps iq mq, mq ≤ q ∧ q ≤ iq) ∧
    (∀ q, (quality_steps iq mq).getLast? = some q → q < mq + 5) ∧
    attempts C im keep_exif iq mq sub prog opt (some s0) m =
      (side_ladder s0 m).flatMap (fun s =>
        (quality_steps iq mq).map (fun q =>
          encode_to_bytes C (downscale C (C.convertRGB im) s) q sub prog opt
            (exifArg C im keep_exif))) ∧
    ((∃ d ∈ attempts C im keep_exif iq mq sub prog opt (some s0) m, d.length ≤ B) →
      compress_to_target C im B keep_exif iq mq sub prog opt (some s0) m =
        (attempts C im keep_exif iq mq sub prog opt (some s0) m).find?
          (fun d => decide (d.length ≤ B))) := by
  have hs0 : s0 ≠ 0 := by omega
  have hside : side_steps (some s0) m = (side_ladder s0 m).map some := by
    simp [side_steps, hs0]
  refine ⟨hside, ?_, side_ladder_chain hm s0, side_ladder_desc hm s0,
    side_ladder_mem_ge hm s0, side_ladder_last hm s0, quality_steps_head hq,
    quality_steps_chain, quality_steps_mem, quality_steps_last, ?_, ?_⟩
  · rw [side_ladder_head hm, if_pos hms]
  · rw [attempts, hside, List.flatMap_map]
    rfl
  · intro hex
    exact compress_scan_first B _ hex

/-- Witness for C3 at the concrete codec, with the script's default
parameters (start 3000, floor 1200, qualities 85 down to 40) and budget 50. -/
theorem C3_enumeration_order_witness :
    side_steps (some 3000) 1200 = (side_ladder 3000 1200).map some ∧
    (side_ladder 3000 1200).head? = some 3000 ∧
    List.Chain' (fun a b => b = a * 9 / 10) (side_ladder 3000 1200) ∧
    List.Chain' (fun a b => b < a) (side_ladder 3000 1200) ∧
    (∀ x ∈ side_ladder 3000 1200, 1200 ≤ x) ∧
    (∀ t, (side_ladder 3000 1200).getLast? = some t → t * 9 / 10 < 1200) ∧
    (quality_steps 85 40).head? = some 85 ∧
    List.Chain' (fun a b => b = a - 5) (quality_steps 85 40) ∧
    (∀ q ∈ quality_steps 85 40, 40 ≤ q ∧ q ≤ 85) ∧
    (∀ q, (quality_steps 85 40).getLast? = some q → q < 40 + 5) ∧
    attempts qCodec () false 85 40 2 true true (some 3000) 1200 =
      (side_ladder 3000 1200).flatMap (fun s =>
        (quality_steps 85 40).map (fun q =>
          encode_to_bytes qCodec (downscale qCodec (qCodec.convertRGB ()) s) q 2 true true
            (exifArg qCodec () false))) ∧
    ((∃ d ∈ attempts qCodec () false 85 40 2 true true (some 3000) 1200, d.length ≤ 50) →
      compress_to_target qCodec () 50 false 85 40 2 true true (some 3000) 1200 =
        (attempts qCodec () false 85 40 2 true true (some 3000) 1200).find?
          (fun d => decide (d.length ≤ 50))) :=
  C3_enumeration_order qCodec () 50 false 85 40 2 true true 3000 1200
    (by decide) (by decide) (by decide)

/-! ### Claim C9: `downscale` -/

/-- A concrete codec whose images are just their dimensions, used to
evaluate `downscale` on closed inputs. -/
def dimCodec : Codec (Nat × Nat) :=
  ⟨fun p => p, fun _ s => s, fun p => p, fun _ => none, fun _ _ _ _ _ _ => []⟩

/-- C9 counterexample: with resolution cap `0` and a 5x5 image, the image's
longest side (5) exceeds the cap, yet `downscale` produces a 1x1 image whose
longest side (1) still exceeds the cap, contradicting "otherwise the
result's longest side is <= the cap" as stated for *every* cap. -/
theorem C9_counterexample :
    ¬ max (dimCodec.size (5, 5)).1 (dimCodec.size (5, 5)).2 ≤ 0 ∧
    downscale dimCodec (5, 5) 0 = (1, 1) ∧
    ¬ max (dimCodec.size (downscale dimCodec (5, 5) 0)).1
        (dimCodec.size (downscale dimCodec (5, 5) 0)).2 ≤ 0 := by
  decide

/-- C9 (amended): `downscale` never increases dimensions; if the longest
side is already `≤ cap` the image is returned unchanged; and for `cap ≥ 1`
(the only caps the program uses, its floor being 1200) the result's longest
side is `≤ cap`.  The original claim fails only at `cap = 0`, where the
`max(1, ...)` clamps force a 1x1 result. -/
theorem C9_downscale_never_upsizes {Img : Type} (C : Codec Img) (im : Img) (cap w h : Nat)
    (hsz : C.size im = (w, h))
    (hres : ∀ im2 s, C.size (C.resize im2 s) = s)
    (hw : 1 ≤ w) (hh : 1 ≤ h) :
    (max w h ≤ cap → downscale C im cap = im) ∧
    (¬ max w h ≤ cap →
      (C.size (downscale C im cap)).1 ≤ w ∧ (C.size (downscale C im cap)).2 ≤ h ∧
      (1 ≤ cap →
        max (C.size (downscale C im cap)).1 (C.size (downscale C im cap)).2 ≤ cap)) := by
  have hm : max w h = (max w h) := rfl
  constructor
  · intro hle
    simp only [downscale, hsz]
    rw [if_pos hle]
  · intro hgt
    have hcap : cap < max w h := by omega
    have hmpos : 0 < max w h := by omega
    have hA : w * cap / max w h ≤ cap := by
      calc w * cap / max w h ≤ max w h * cap / max w h :=
            Nat.div_le_div_right (Nat.mul_le_mul_right cap (Nat.le_max_left w h))
        _ = cap := by rw [Nat.mul_comm]; exact Nat.mul_div_cancel cap hmpos
    have hB : h * cap / max w h ≤ cap := by
      calc h * cap / max w h ≤ max w h * cap / max w h :=
            Nat.div_le_div_right (Nat.mul_le_mul_right cap (Nat.le_max_right w h))
        _ = cap := by rw [Nat.mul_comm]; exact Nat.mul_div_cancel cap hmpos
    have hAw : w * cap / max w h ≤ w := by
      calc w * cap / max w h ≤ w * max w h / max w h :=
            Nat.div_le_div_right (Nat.mul_le_mul_left w (by omega))
        _ = w := Nat.mul_div_cancel w hmpos
    have hBh : h * cap / max w h ≤ h := by
      calc h * cap / max w h ≤ h * max w h / max w h :=
            Nat.div_le_div_right (Nat.mul_le_mul_left h (by omega))
        _ = h := Nat.mul_div_cancel h hmpos
    have hds : downscale C im cap =
        C.resize im (max 1 (w * cap / max w h), max 1 (h * cap / max w h)) := by
      simp only [downscale, hsz]
      rw [if_neg hgt]
    rw [hds, hres]
    refine ⟨by simp; omega, by simp; omega, ?_⟩
    intro hcap1
    simp
    omega

/-- Witness for the amended C9: a 40x30 image with cap 20 is downscaled to
20x15: dimensions shrank and the longest side meets the cap. -/
theorem C9_downscale_never_upsizes_witness :
    (max 40 30 ≤ 20 → downscale dimCodec (40, 30) 20 = (40, 30)) ∧
    (¬ max 40 30 ≤ 20 →
      (dimCodec.size (downscale dimCodec (40, 30) 20)).1 ≤ 40 ∧
      (dimCodec.size (downscale dimCodec (40, 30) 20)).2 ≤ 30 ∧
      (1 ≤ 20 →
        max (dimCodec.size (downscale dimCodec (40, 30) 20)).1
          (dimCodec.size (downscale dimCodec (40, 30) 20)).2 ≤ 20)) :=
  C9_downscale_never_upsizes dimCodec (40, 30) 20 40 30 rfl (fun _ _ => rfl)
    (by decide) (by decide)

/-! ### Claim C6: `safe_out_path` never targets an existing file -/

/-- C6 counterexample: `safe_out_path` is a pure read of the directory
state, so two sequential calls with the same directory state and base name
(no file created in between) return the *same* path, refuting "two
sequential calls for the same directory and base name never return the
same path twice" as stated.  Both calls below return `d/Reduced/a.jpg`. -/
theorem C6_counterexample :
    safe_out_path ⟨["d/Reduced"], []⟩ "d/Reduced" "a" = some "d/Reduced/a.jpg" ∧
    safe_out_path ⟨["d/Reduced"], []⟩ "d/Reduced" "a" = some "d/Reduced/a.jpg" := by
  constructor
  · decide
  · decide

/-- C6 (amended): `safe_out_path` always returns a path that does not
currently exist: the unadorned `base.jpg` if free, otherwise the first free
`base_i.jpg` (`i = 1, 2, ...`); if `Reduced/a.jpg` already exists the result
is `Reduced/a_1.jpg`; and two sequential calls return distinct paths
*provided* the path returned by the first call is created before the second
call (without an intervening write the two calls coincide, see the
counterexample). -/
theorem C6_no_overwrite (fs : FS) (od b : String) :
    (∃ p, safe_out_path fs od b = some p ∧ fs.pexists p = false ∧
      (fs.pexists (joinP od (b ++ ".jpg")) = false → p = joinP od (b ++ ".jpg")) ∧
      (fs.pexists (joinP od (b ++ ".jpg")) = true →
        ∃ i, 1 ≤ i ∧ p = candJpg od b i ∧
          ∀ l, 1 ≤ l → l < i → fs.pexists (candJpg od b l) = true) ∧
      (∀ bs q, safe_out_path ⟨fs.dirs, (p, bs) :: fs.files⟩ od b = some q → q ≠ p)) ∧
    safe_out_path ⟨[], [("Reduced/a.jpg", [1])]⟩ "Reduced" "a" = some "Reduced/a_1.jpg" := by
  refine ⟨?_, by decide⟩
  obtain ⟨p, hp, hfree, hbase, hsuff⟩ := safe_out_path_spec fs od b
  refine ⟨p, hp, hfree, hbase, hsuff, ?_⟩
  intro bs q hq hqp
  obtain ⟨q0, hq0, hfree0, _, _⟩ := safe_out_path_spec ⟨fs.dirs, (p, bs) :: fs.files⟩ od b
  rw [hq0] at hq
  have hqq : q = q0 := by
    exact (Option.some.inj hq).symm
  have hp' : FS.pexists ⟨fs.dirs, (p, bs) :: fs.files⟩ p = true := by
    simp only [FS.pexists, FS.allPaths, List.map_cons]
    exact List.elem_iff.mpr (by simp)
  rw [← hqq, hqp] at hfree0
  rw [hp'] at hfree0
  exact Bool.noConfusion hfree0

/-! ### The conversion task and batch driver (source lines 106-207) -/

/-- The rational `1/10` (the `0.1` MB clamp), given by explicit numerator
and denominator so that it evaluates in the kernel. -/
def tenthQ : ℚ := ⟨1, 10, by norm_num, by norm_num⟩

/-- The rational `1/2` (the script's default `--target-mb 0.5`). -/
def halfQ : ℚ := ⟨1, 2, by norm_num, by norm_num⟩

/-- `int(max(0.1, target_mb) * 1024 * 1024)` (source line 123): the float
product is modelled exactly in `ℚ` and truncated; since the clamped value
is positive, truncation is `floor`, computed as `(num * 2^20) fdiv den`. -/
def ratBytes (target_mb : ℚ) : Nat :=
  let t := if target_mb ≤ tenthQ then tenthQ else target_mb
  ((t.num * 1048576).fdiv (t.den : Int)).toNat

/-- The external effects `convert_heic_file` performs besides pure
filesystem bookkeeping: decoding (`Image.open` + load) and the possibility
of `write_bytes` raising.  `writeErr p = some e` means writing to path `p`
raises exception `e`. -/
structure Env (Img : Type) where
  codec : Codec Img
  decode : Bytes → Except String Img
  writeErr : String → Option String

deriving instance DecidableEq for Except

/-- Result of one `convert_heic_file` call: the returned value (or the
exception escaping the call), the filesystem afterwards, and the lines
printed. -/
structure ConvOut where
  res : Except String Bool
  fs : FS
  log : List String
deriving DecidableEq

def failMsg (fp e : String) : String := "Failed: " ++ pyName fp ++ " | " ++ e

def convMsg (fp out_path : String) (n : Nat) : String :=
  "Converted: " ++ pyName fp ++ " -> " ++ out_path ++ " (" ++ natStr n ++ " bytes)"

/-- The `try:` block of `convert_heic_file` (source lines 121-145), entered
after the output directory exists and `out_path` is chosen: decode, compress,
write; every exception inside is caught and turned into `False` plus a
`Failed:` line.  The preceding `safe_out_path` call is also here because it
runs on the filesystem state after `mkdir`. -/
def convert_body {Img : Type} (E : Env Img) (target_mb : ℚ) (keep_exif : Bool)
    (start_max_side : Option Nat) (fs1 : FS) (fp out_dir : String) : ConvOut :=
  match safe_out_path fs1 out_dir (pyStem (pyName fp)) with
  | none => ⟨.error "safe_out_path diverged", fs1, []⟩
  | some out_path =>
    match fs1.readF fp with
    | none => ⟨.ok false, fs1, [failMsg fp "FileNotFoundError"]⟩
    | some content =>
      match E.decode content with
      | .error e => ⟨.ok false, fs1, [failMsg fp e]⟩
      | .ok im =>
        match compress_to_target E.codec im (ratBytes target_mb) keep_exif
            85 40 2 true true start_max_side 1200 with
        | none => ⟨.ok false, fs1, [failMsg fp "NameError"]⟩
        | some jpeg_bytes =>
          match E.writeErr out_path with
          | some e => ⟨.ok false, fs1, [failMsg fp e]⟩
          | none =>
            ⟨.ok true, ⟨fs1.dirs, (out_path, jpeg_bytes) :: fs1.files⟩,
              [convMsg fp out_path jpeg_bytes.length]⟩

/-- `convert_heic_file` (source lines 106-145).  The extension guard and
`out_dir.mkdir(exist_ok=True)` run *before* the `try:` block: a `mkdir`
failure (the `Reduced` path exists as a regular file) escapes the function
as an exception. -/
def convert_heic_file {Img : Type} (E : Env Img) (target_mb : ℚ) (keep_exif : Bool)
    (start_max_side : Option Nat) (fs : FS) (fp : String) : ConvOut :=
  if !(fs.isFile fp) || ((strLower (pySuffix (pyName fp)) != ".heic")) then ⟨.ok false, fs, []⟩
  else
    let out_dir := joinP (pyParent fp) "Reduced"
    if fs.isDir out_dir then
      convert_body E target_mb keep_exif start_max_side fs fp out_dir
    else if fs.isFile out_dir then ⟨.error "FileExistsError", fs, []⟩
    else
      convert_body E target_mb keep_exif start_max_side ⟨out_dir :: fs.dirs, fs.files⟩ fp out_dir

/-- The direct children of `d` that are regular files with a `.heic`
suffix (case-insensitively): the `iterdir` filter of `convert_dir`
(source lines 159-160). -/
def heic_entries (fs : FS) (d : String) : List String :=
  (fs.files.map Prod.fst).filter
    (fun p => pyParent p == d && strLower (pySuffix (pyName p)) == ".heic")

/-- Sequentially convert a list of files, threading the filesystem,
counting successes and collecting output; an exception escaping any
`convert_heic_file` call aborts the whole run (as an uncaught Python
exception would). -/
def convert_fold {Img : Type} (E : Env Img) (target_mb : ℚ) (keep_exif : Bool)
    (start_max_side : Option Nat) :
    List String → FS → Nat → List String → Except String (Nat × FS × List String)
  | [], fs, c, log => .ok (c, fs, log)
  | fp :: rest, fs, c, log =>
    let r := convert_heic_file E target_mb keep_exif start_max_side fs fp
    match r.res with
    | .error e => .error e
    | .ok b =>
      convert_fold E target_mb keep_exif start_max_side rest r.fs
        (c + if b then 1 else 0) (log ++ r.log)

/-- `convert_dir` (source lines 147-167): non-recursive scan of `d`. -/
def convert_dir {Img : Type} (E : Env Img) (target_mb : ℚ) (keep_exif : Bool)
    (start_max_side : Option Nat) (fs : FS) (d : String) :
    Except String (Nat × FS × List String) :=
  if !(fs.pexists d) || !(fs.isDir d) then
    .ok (0, fs, ["Input path is not a directory: " ++ d])
  else
    match convert_fold E target_mb keep_exif start_max_side (heic_entries fs d) fs 0 [] with
    | .error e => .error e
    | .ok (c, fs2, log) =>
      if c = 0 then .ok (0, fs2, log ++ ["No .heic files found in: " ++ d])
      else .ok (c, fs2, log ++ ["Done. Converted " ++ natStr c ++ " file(s) in: " ++ d])

/-- Fold `convert_dir` over the directory arguments of `main`
(source lines 201-202). -/
def dirs_fold {Img : Type} (E : Env Img) (target_mb : ℚ) (keep_exif : Bool)
    (start_max_side : Option Nat) :
    List String → FS → Nat → List String → Except String (Nat × FS × List String)
  | [], fs, c, log => .ok (c, fs, log)
  | d :: rest, fs, c, log =>
    match convert_dir E target_mb keep_exif start_max_side fs d with
    | .error e => .error e
    | .ok r => dirs_fold E target_mb keep_exif start_max_side rest r.2.1 (c + r.1) (log ++ r.2.2)

/-- `main` (source lines 183-207) after argument parsing: classify the
path arguments into existing files, existing directories and missing
paths, convert the file arguments, then scan the directory arguments.
There is no deduplication of any kind. -/
def mainRun {Img : Type} (E : Env Img) (target_mb : ℚ) (keep_exif : Bool)
    (start_max_side : Option Nat) (cwd : String) (fs : FS) (args : List String) :
    Except String (Nat × FS × List String) :=
  if args.isEmpty then convert_dir E target_mb keep_exif start_max_side fs cwd
  else
    let fileArgs := args.filter (fun p => fs.isFile p)
    let dirArgs := args.filter (fun p => fs.isDir p)
    let missing := args.filter (fun p => !(fs.pexists p))
    let log0 := missing.map (fun p => "Path does not exist: " ++ p)
    match convert_fold E target_mb keep_exif start_max_side fileArgs fs 0 log0 with
    | .error e => .error e
    | .ok (c1, fs1, log1) =>
      match dirs_fold E target_mb keep_exif start_max_side dirArgs fs1 c1 log1 with
      | .error e => .error e
      | .ok (total, fs2, log2) =>
        .ok (total, fs2,
          log2 ++ [if 0 < total then "All done. Total converted: " ++ natStr total
                   else "Nothing converted."])

/-! ### Case analysis of the conversion task -/

/-- A concrete environment over `qCodec` where decoding always succeeds and
writes never fail. -/
def envU : Env Unit := ⟨qCodec, fun _ => Except.ok (), fun _ => none⟩

/-- Every exit of the `try:` block returns normally: success appends
exactly the new output file, any caught failure leaves the filesystem
untouched.  (`safe_out_path` provably succeeds, so the body never errors.) -/
theorem convert_body_cases {Img : Type} (E : Env Img) (tmb : ℚ) (keep : Bool)
    (sms : Option Nat) (fs1 : FS) (fp od : String) :
    (∃ out_path jb,
      (convert_body E tmb keep sms fs1 fp od).res = Except.ok true ∧
      (convert_body E tmb keep sms fs1 fp od).fs = ⟨fs1.dirs, (out_path, jb) :: fs1.files⟩) ∨
    ((convert_body E tmb keep sms fs1 fp od).res = Except.ok false ∧
      (convert_body E tmb keep sms fs1 fp od).fs = fs1) := by
  obtain ⟨p, hp, -, -, -⟩ := safe_out_path_spec fs1 od (pyStem (pyName fp))
  cases hrd : fs1.readF fp with
  | none => right; simp [convert_body, hp, hrd]
  | some content =>
    cases hdec : E.decode content with
    | error e => right; simp [convert_body, hp, hrd, hdec]
    | ok im =>
      cases hcmp : compress_to_target E.codec im (ratBytes tmb) keep 85 40 2 true true
          sms 1200 with
      | none => right; simp [convert_body, hp, hrd, hdec, hcmp]
      | some jb =>
        cases hw : E.writeErr p with
        | some e => right; simp [convert_body, hp, hrd, hdec, hcmp, hw]
        | none =>
          left
          exact ⟨p, jb, by simp [convert_body, hp, hrd, hdec, hcmp, hw],
            by simp [convert_body, hp, hrd, hdec, hcmp, hw]⟩

/-! ### Claim C10: the extension guard performs no filesystem action -/

/-- C10: for every path that is not a regular file or whose suffix is not
`.heic` case-insensitively, `convert_heic_file` returns `False` before any
filesystem modification: no `Reduced` directory is created, no output path
is allocated, no bytes are written, nothing is printed. -/
theorem C10_guard_no_effect {Img : Type} (E : Env Img) (tmb : ℚ) (keep : Bool)
    (sms : Option Nat) (fs : FS) (fp : String)
    (h : fs.isFile fp = false ∨ strLower (pySuffix (pyName fp)) ≠ ".heic") :
    convert_heic_file E tmb keep sms fs fp = ⟨Except.ok false, fs, []⟩ := by
  have hg : (!(fs.isFile fp) || ((strLower (pySuffix (pyName fp)) != ".heic"))) = true := by
    rcases h with h | h
    · simp [h]
    · simp [bne_iff_ne, h]
  simp [convert_heic_file, hg]

/-- Witness for C10: a `.png` file is refused with no effect at all. -/
theorem C10_guard_no_effect_witness :
    convert_heic_file envU halfQ false (some 3000) ⟨["d"], [("d/a.png", [7])]⟩ "d/a.png" =
      ⟨Except.ok false, ⟨["d"], [("d/a.png", [7])]⟩, []⟩ :=
  C10_guard_no_effect envU halfQ false (some 3000) ⟨["d"], [("d/a.png", [7])]⟩ "d/a.png"
    (Or.inr (by decide))

/-! ### Claim C7: no output file on failure -/

/-- C7: whenever `convert_heic_file` does not return success, the set of
regular files is unchanged: bytes are written only after a complete
encoding is obtained, so a failed conversion leaves no partial or corrupt
output file behind (only the empty `Reduced` directory may have been
created). -/
theorem C7_no_output_on_failure {Img : Type} (E : Env Img) (tmb : ℚ) (keep : Bool)
    (sms : Option Nat) (fs : FS) (fp : String)
    (h : (convert_heic_file E tmb keep sms fs fp).res ≠ Except.ok true) :
    (convert_heic_file E tmb keep sms fs fp).fs.files = fs.files := by
  by_cases hg : (!(fs.isFile fp) || ((strLower (pySuffix (pyName fp)) != ".heic"))) = true
  · simp [convert_heic_file, hg]
  · have hg' : (!(fs.isFile fp) || ((strLower (pySuffix (pyName fp)) != ".heic"))) = false := by
      cases hb : (!(fs.isFile fp) || ((strLower (pySuffix (pyName fp)) != ".heic"))) with
      | false => rfl
      | true => exact absurd hb hg
    by_cases hd : fs.isDir (joinP (pyParent fp) "Reduced") = true
    · have heq : convert_heic_file E tmb keep sms fs fp =
          convert_body E tmb keep sms fs fp (joinP (pyParent fp) "Reduced") := by
        simp [convert_heic_file, hg', hd]
      rw [heq] at h ⊢
      rcases convert_body_cases E tmb keep sms fs fp (joinP (pyParent fp) "Reduced") with
        ⟨op, jb, hres, -⟩ | ⟨-, hfs⟩
      · exact absurd hres h
      · rw [hfs]
    · have hd' : fs.isDir (joinP (pyParent fp) "Reduced") = false := by
        cases hb : fs.isDir (joinP (pyParent fp) "Reduced") with
        | false => rfl
        | true => exact absurd hb hd
      by_cases hf : fs.isFile (joinP (pyParent fp) "Reduced") = true
      · simp [convert_heic_file, hg', hd', hf]
      · have hf' : fs.isFile (joinP (pyParent fp) "Reduced") = false := by
          cases hb : fs.isFile (joinP (pyParent fp) "Reduced") with
          | false => rfl
          | true => exact absurd hb hf
        have heq : convert_heic_file E tmb keep sms fs fp =
            convert_body E tmb keep sms
              ⟨joinP (pyParent fp) "Reduced" :: fs.dirs, fs.files⟩ fp
              (joinP (pyParent fp) "Reduced") := by
          simp [convert_heic_file, hg', hd', hf']
        rw [heq] at h ⊢
        rcases convert_body_cases E tmb keep sms
            ⟨joinP (pyParent fp) "Reduced" :: fs.dirs, fs.files⟩ fp
            (joinP (pyParent fp) "Reduced") with ⟨op, jb, hres, -⟩ | ⟨-, hfs⟩
        · exact absurd hres h
        · rw [hfs]

/-- Witness for C7: a conversion that fails (decode error) leaves the file
set unchanged. -/
theorem C7_no_output_on_failure_witness :
    (convert_heic_file (⟨qCodec, fun _ => Except.error "corrupt", fun _ => none⟩ : Env Unit)
        halfQ false (some 3000) ⟨["d"], [("d/a.heic", [7])]⟩ "d/a.heic").fs.files =
      [("d/a.heic", [7])] :=
  C7_no_output_on_failure (⟨qCodec, fun _ => Except.error "corrupt", fun _ => none⟩ : Env Unit)
    halfQ false (some 3000) ⟨["d"], [("d/a.heic", [7])]⟩ "d/a.heic" (by decide)

/-! ### Claim C4: exception propagation out of `convert_heic_file` -/

/-- C4 counterexample: when `d/Reduced` exists as a regular file,
`out_dir.mkdir(exist_ok=True)` raises `FileExistsError` *outside* the
`try:` block, and the exception escapes `convert_heic_file`, refuting
"no exception ever propagates out of convert_heic_file". -/
theorem C4_counterexample :
    (convert_heic_file envU halfQ false (some 3000)
        ⟨["d"], [("d/a.heic", [7]), ("d/Reduced", [1])]⟩ "d/a.heic").res =
      Except.error "FileExistsError" := by
  decide

/-- C4 (amended): failures in the decode-compress-write phase are caught
inside `convert_heic_file` and turned into a `False` return; but the
pre-`try:` steps can raise, so freedom from escaping exceptions holds only
when the `Reduced` path is not an existing regular file (it may be a
directory or absent). -/
theorem C4_errors_caught {Img : Type} (E : Env Img) (tmb : ℚ) (keep : Bool)
    (sms : Option Nat) (fs : FS) (fp : String)
    (h : fs.isDir (joinP (pyParent fp) "Reduced") = true ∨
      fs.isFile (joinP (pyParent fp) "Reduced") = false) :
    ∃ b, (convert_heic_file E tmb keep sms fs fp).res = Except.ok b := by
  by_cases hg : (!(fs.isFile fp) || ((strLower (pySuffix (pyName fp)) != ".heic"))) = true
  · exact ⟨false, by simp [convert_heic_file, hg]⟩
  · have hg' : (!(fs.isFile fp) || ((strLower (pySuffix (pyName fp)) != ".heic"))) = false := by
      cases hb : (!(fs.isFile fp) || ((strLower (pySuffix (pyName fp)) != ".heic"))) with
      | false => rfl
      | true => exact absurd hb hg
    by_cases hd : fs.isDir (joinP (pyParent fp) "Reduced") = true
    · have heq : convert_heic_file E tmb keep sms fs fp =
          convert_body E tmb keep sms fs fp (joinP (pyParent fp) "Reduced") := by
        simp [convert_heic_file, hg', hd]
      rw [heq]
      rcases convert_body_cases E tmb keep sms fs fp (joinP (pyParent fp) "Reduced") with
        ⟨op, jb, hres, -⟩ | ⟨hres, -⟩
      · exact ⟨true, hres⟩
      · exact ⟨false, hres⟩
    · have hd' : fs.isDir (joinP (pyParent fp) "Reduced") = false := by
        cases hb : fs.isDir (joinP (pyParent fp) "Reduced") with
        | false => rfl
        | true => exact absurd hb hd
      have hf' : fs.isFile (joinP (pyParent fp) "Reduced") = false := by
        rcases h with h | h
        · rw [h] at hd'
          exact Bool.noConfusion hd'
        · exact h
      have heq : convert_heic_file E tmb keep sms fs fp =
          convert_body E tmb keep sms
            ⟨joinP (pyParent fp) "Reduced" :: fs.dirs, fs.files⟩ fp
            (joinP (pyParent fp) "Reduced") := by
        simp [convert_heic_file, hg', hd', hf']
      rw [heq]
      rcases convert_body_cases E tmb keep sms
          ⟨joinP (pyParent fp) "Reduced" :: fs.dirs, fs.files⟩ fp
          (joinP (pyParent fp) "Reduced") with ⟨op, jb, hres, -⟩ | ⟨hres, -⟩
      · exact ⟨true, hres⟩
      · exact ⟨false, hres⟩

/-- Witness for the amended C4: with `d/Reduced` absent, the call returns
normally. -/
theorem C4_errors_caught_witness :
    ∃ b, (convert_heic_file envU halfQ false (some 3000)
        ⟨["d"], [("d/a.heic", [7])]⟩ "d/a.heic").res = Except.ok b :=
  C4_errors_caught envU halfQ false (some 3000) ⟨["d"], [("d/a.heic", [7])]⟩ "d/a.heic"
    (Or.inr (by decide))

/-! ### Claim C5: discovery is not deduplicated -/

/-- C5 counterexample: passing the same directory twice converts its single
`.heic` file twice — the batch reports 2 conversions and both
`d/Reduced/a.jpg` and `d/Reduced/a_1.jpg` exist afterwards — refuting
"passing the same directory twice does not convert any file more than
once"; `main` performs no deduplication of its path arguments. -/
theorem C5_counterexample :
    (mainRun envU halfQ false (some 3000) "cwd" ⟨["d"], [("d/a.heic", [7])]⟩
        ["d", "d"]).map
      (fun r => (r.1, r.2.1.isFile "d/Reduced/a.jpg", r.2.1.isFile "d/Reduced/a_1.jpg")) =
    Except.ok (2, true, true) := by
  decide

/-- C5 (amended): `main` does not deduplicate its path arguments: each
occurrence is processed independently, so passing the same directory twice
runs the full directory scan twice in sequence (the second pass re-converts
every `.heic` file, writing to suffixed output names); each distinct source
file is converted once *per qualifying occurrence*, not once overall. -/
theorem C5_no_dedup {Img : Type} (E : Env Img) (tmb : ℚ) (keep : Bool) (sms : Option Nat)
    (cwd : String) (fs : FS) (d : String)
    (hd : fs.isDir d = true) (hnf : fs.isFile d = false) :
    (mainRun E tmb keep sms cwd fs [d, d]).map (fun r => (r.1, r.2.1)) =
      (convert_dir E tmb keep sms fs d).bind (fun r1 =>
        (convert_dir E tmb keep sms r1.2.1 d).map (fun r2 => (r1.1 + r2.1, r2.2.1))) := by
  have hmem : d ∈ fs.allPaths := by
    have : d ∈ fs.dirs := List.elem_iff.mp hd
    exact List.mem_append.mpr (Or.inr this)
  have hex : fs.pexists d = true := List.elem_iff.mpr hmem
  simp only [mainRun, List.isEmpty_cons, Bool.false_eq_true, if_false, List.filter_cons,
    List.filter_nil, hd, hnf, hex, Bool.not_true, if_true, if_false]
  simp only [convert_fold]
  cases h1 : convert_dir E tmb keep sms fs d with
  | error e => simp [dirs_fold, h1, Except.map, Except.bind]
  | ok r1 =>
    cases h2 : convert_dir E tmb keep sms r1.2.1 d with
    | error e => simp [dirs_fold, h1, h2, Except.map, Except.bind]
    | ok r2 => simp [dirs_fold, h1, h2, Except.map, Except.bind]

/-- Witness for the amended C5 at the concrete one-file directory. -/
theorem C5_no_dedup_witness :
    (mainRun envU halfQ false (some 3000) "cwd" ⟨["d"], [("d/a.heic", [7])]⟩
        ["d", "d"]).map (fun r => (r.1, r.2.1)) =
      (convert_dir envU halfQ false (some 3000) ⟨["d"], [("d/a.heic", [7])]⟩ "d").bind
        (fun r1 =>
          (convert_dir envU halfQ false (some 3000) r1.2.1 "d").map
            (fun r2 => (r1.1 + r2.1, r2.2.1))) :=
  C5_no_dedup envU halfQ false (some 3000) "cwd" ⟨["d"], [("d/a.heic", [7])]⟩ "d"
    (by decide) (by decide)
